import Mathlib

/-!
Verification of the lazy-cartesian-product library (lazy-cartesian-product.hpp,
version 1.6, non-Boost path). The C++ static members of `lazy_cartesian_product`
are embedded as functions in the `lazycp` namespace; machine integers
(`unsigned long long`) are modelled as `Nat` (the spec's Big Integer Contract:
the arithmetic never relies on wraparound for the inputs considered here, see
the invariant lemmas on the sampler), and C++ exceptions as `Except Error`.
The random value produced by `uniform_int_distribution(0, range_size)(gen)`
inside `RandomIterator::next` is modelled as an explicit `offset` argument;
`valid_offsets` states that each offset lies in the inclusive range the
distribution was constructed with.
-/

namespace lazycp

/-- The exception types of `lazycp::errors`, plus the `std::out_of_range`
thrown by `RandomIterator::next` on exhaustion. -/
inductive Error where
  | index_error
  | empty_list_error
  | empty_answers_error
  | invalid_sample_size_error
  | out_of_range_exceeded
deriving Repr, DecidableEq

/-- `struct precomputed_stats` (non-Boost variant): divs, mods and max_size. -/
structure precomputed_stats where
  divs : List Nat
  mods : List Nat
  max_size : Nat
deriving Repr, DecidableEq

/-- `class RandomIterator`: fields `n`, `last_k`, `num_left`
(the `mt19937_64 gen` member is modelled by the offset arguments below). -/
structure RandomIterator where
  n : Nat
  last_k : Nat
  num_left : Nat
deriving Repr, DecidableEq

/-- `RandomIterator::has_next`: `return num_left > 0;` -/
def RandomIterator.has_next (it : RandomIterator) : Bool :=
  decide (it.num_left > 0)

/-- `RandomIterator::next`: when `num_left > 0`, computes
`range_size = (n - last_k) / num_left`, draws `offset` (the value of
`rnd(gen)`, passed explicitly here), returns `r = offset + last_k + 1` and
updates `last_k := r`, `num_left := num_left - 1`; otherwise throws
`std::out_of_range`. -/
def RandomIterator.next (it : RandomIterator) (offset : Nat) :
    Except Error (Nat × RandomIterator) :=
  if it.num_left > 0 then
    let r := offset + it.last_k + 1
    Except.ok (r, ⟨it.n, r, it.num_left - 1⟩)
  else
    Except.error Error.out_of_range_exceeded

/-- The `while (iter.has_next()) ... iter.next()` loop of `generate_samples`,
consuming one offset (one `rnd(gen)` draw) per iteration: returns the list of
values produced and the final iterator state. -/
def RandomIterator.drain : RandomIterator → List Nat → List Nat × RandomIterator
  | it, [] => ([], it)
  | it, o :: os =>
    if it.has_next then
      match it.next o with
      | Except.ok (r, it2) =>
        let rest := RandomIterator.drain it2 os
        (r :: rest.1, rest.2)
      | Except.error _ => ([], it)
    else ([], it)

/-- Each offset is a legal value of `uniform_int_distribution(0, range_size)`:
`offset ≤ (n - last_k) / num_left` at the state in which it is consumed. -/
def RandomIterator.valid_offsets : RandomIterator → List Nat → Bool
  | _, [] => true
  | it, o :: os =>
    if it.num_left > 0 then
      decide (o ≤ (it.n - it.last_k) / it.num_left) &&
        RandomIterator.valid_offsets ⟨it.n, o + it.last_k + 1, it.num_left - 1⟩ os
    else true

/-- `lazy_cartesian_product::compute_max_size`: `size = 1; for domain in
combinations: size *= domain.size();`. -/
def compute_max_size (combinations : List (List String)) : Nat :=
  combinations.foldl (fun size it => size * it.length) 1

/-- The `for (i = size - 1; i >= 0; --i)` loop of
`lazy_cartesian_product::precompute`, expressed right-to-left: returns
(divs, mods, factor) where at each position `divs[i] = factor`,
`mods[i] = combinations[i].size()` and then `factor *= mods[i]`. -/
def precomputeAux : List (List String) → List Nat × List Nat × Nat
  | [] => ([], [], 1)
  | c :: cs =>
    let rest := precomputeAux cs
    (rest.2.2 :: rest.1, c.length :: rest.2.1, rest.2.2 * c.length)

/-- `lazy_cartesian_product::precompute`: throws `empty_answers_error` on an
empty list, otherwise fills divs/mods by the right-to-left factor loop and
sets `max_size = compute_max_size(combinations)`. -/
def precompute (combinations : List (List String)) :
    Except Error precomputed_stats :=
  if combinations.length = 0 then
    Except.error Error.empty_answers_error
  else
    let r := precomputeAux combinations
    Except.ok ⟨r.1, r.2.1, compute_max_size combinations⟩

/-- `lazy_cartesian_product::sample_size_valid`: `return sample <= max_size;`
(defined in the source but never called in version 1.6). -/
def sample_size_valid (sample : Nat) (max_size : Nat) : Bool :=
  decide (sample ≤ max_size)

/-- The private `lazy_cartesian_product::entry_at(combinations, n, ps)`:
`combination[i] = combinations[i][(n / ps.divs[i]) % ps.mods[i]]` for each
`i < combinations.size()` (divs and mods have that same length by
construction; an out-of-bounds C++ access, which never happens on the inputs
the library constructs, is given the default value here). -/
def entry_at_priv (combinations : List (List String)) (n : Nat)
    (ps : precomputed_stats) : List String :=
  (combinations.zip (ps.divs.zip ps.mods)).map
    (fun p => p.1.getD ((n / p.2.1) % p.2.2) "")

/-- The public `lazy_cartesian_product::entry_at(combinations, index)`:
precomputes the stats, throws `index_error` when
`index < 0 || index >= pc.max_size` (the guard exactly as written in the
source, hence the integer index type), and otherwise delegates to the private
`entry_at`. -/
def entry_at (combinations : List (List String)) (index : Int) :
    Except Error (List String) :=
  match precompute combinations with
  | Except.error e => Except.error e
  | Except.ok pc =>
    if index < 0 ∨ (pc.max_size : Int) ≤ index then
      Except.error Error.index_error
    else
      Except.ok (entry_at_priv combinations index.toNat pc)

/-- `lazy_cartesian_product::generate_samples(combinations, sample_size)`:
throws `empty_list_error` on an empty list, precomputes the stats, and either
drains a `RandomIterator(sample_size, max_size)` decoding each drawn value
(when `sample_size != max_size`) or decodes every index `0..sample_size-1` in
order (when `sample_size == max_size`). The offsets list supplies the random
draws. -/
def generate_samples (offsets : List Nat) (combinations : List (List String))
    (sample_size : Nat) : Except Error (List (List String)) :=
  if combinations.length = 0 then
    Except.error Error.empty_list_error
  else
    match precompute combinations with
    | Except.error e => Except.error e
    | Except.ok ps =>
      if sample_size ≠ ps.max_size then
        Except.ok
          (((RandomIterator.mk ps.max_size 0 sample_size).drain offsets).1.map
            (fun i => entry_at_priv combinations i ps))
      else
        Except.ok
          ((List.range sample_size).map
            (fun i => entry_at_priv combinations i ps))

/-! ### Mathematical companions of the definitions above
`sufProds`, `decodeDigits` and `encodeDigits` are proof-side descriptions of
the mixed-radix structure; they are related to the source-embedded functions
by the bridge lemmas below. -/

/-- Suffix products: `sufProds ms` lists, for each position, the product of
the entries strictly to its right. This is what the factor loop of
`precompute` stores into `divs`. -/
def sufProds : List Nat → List Nat
  | [] => []
  | _ :: ms => ms.prod :: sufProds ms

/-- The mixed-radix digits of `n` for the size list `ms`:
digit at position `i` is `(n / sufProds ms !! i) % ms !! i`. -/
def decodeDigits (n : Nat) : List Nat → List Nat
  | [] => []
  | m :: ms => (n / ms.prod) % m :: decodeDigits n ms

/-- Mixed-radix recomposition: the index whose digits (for size list `ms`)
are `ds`. -/
def encodeDigits : List Nat → List Nat → Nat
  | d :: ds, _ :: ms => d * ms.prod + encodeDigits ds ms
  | _, _ => 0

/-! ### Characterization of `precompute` -/

theorem compute_max_size_eq_prod (cs : List (List String)) :
    compute_max_size cs = (cs.map List.length).prod := by
  have h : ∀ (cs : List (List String)) (s : Nat),
      cs.foldl (fun size it => size * it.length) s =
        s * (cs.map List.length).prod := by
    intro cs
    induction cs with
    | nil => intro s; simp
    | cons c cs ih =>
      intro s
      simp [List.foldl_cons, ih, List.prod_cons, Nat.mul_assoc]
  simpa [compute_max_size] using h cs 1

theorem precomputeAux_eq (cs : List (List String)) :
    precomputeAux cs =
      (sufProds (cs.map List.length), cs.map List.length,
        (cs.map List.length).prod) := by
  induction cs with
  | nil => simp [precomputeAux, sufProds]
  | cons c cs ih => simp [precomputeAux, ih, sufProds, Nat.mul_comm]

theorem precompute_ok (cs : List (List String)) (h : cs ≠ []) :
    precompute cs = Except.ok
      ⟨sufProds (cs.map List.length), cs.map List.length,
        (cs.map List.length).prod⟩ := by
  have hlen : ¬ cs.length = 0 := by simpa [List.length_eq_zero] using h
  simp [precompute, hlen, precomputeAux_eq, compute_max_size_eq_prod]

theorem precompute_ok_elim {cs : List (List String)} {ps : precomputed_stats}
    (h : precompute cs = Except.ok ps) :
    cs ≠ [] ∧ ps = ⟨sufProds (cs.map List.length), cs.map List.length,
      (cs.map List.length).prod⟩ := by
  by_cases hne : cs = []
  · subst hne; simp [precompute] at h
  · rw [precompute_ok cs hne] at h
    exact ⟨hne, (Except.ok.inj h).symm⟩

theorem sufProds_getD (ms : List Nat) (i : Nat) (h : i < ms.length) :
    (sufProds ms).getD i 0 = (ms.drop (i + 1)).prod := by
  induction ms generalizing i with
  | nil => simp at h
  | cons m ms ih =>
    cases i with
    | zero => simp [sufProds]
    | succ i =>
      have hi : i < ms.length := by simpa using h
      simpa [sufProds] using ih i hi

/-! ### The mixed-radix digits -/

theorem decodeDigits_forall2_lt (ms : List Nat) (hm : ∀ m ∈ ms, 0 < m)
    (n : Nat) : List.Forall₂ (· < ·) (decodeDigits n ms) ms := by
  induction ms with
  | nil => simp [decodeDigits]
  | cons m ms ih =>
    exact List.Forall₂.cons (Nat.mod_lt _ (hm m (by simp)))
      (ih (fun x hx => hm x (by simp [hx])))

theorem decodeDigits_mod_mul (ms : List Nat) (n : Nat) :
    ∀ k, decodeDigits (n % (k * ms.prod)) ms = decodeDigits n ms := by
  induction ms with
  | nil => intro k; simp [decodeDigits]
  | cons m ms ih =>
    intro k
    simp only [decodeDigits, List.prod_cons, List.cons.injEq]
    constructor
    · have hdvd : ms.prod * m ∣ k * (m * ms.prod) := ⟨k, by ring⟩
      rw [← Nat.mod_mul_right_div_self, ← Nat.mod_mul_right_div_self,
        Nat.mod_mod_of_dvd n hdvd]
    · have hassoc : k * (m * ms.prod) = (k * m) * ms.prod := by ring
      rw [hassoc]
      exact ih (k * m)

theorem decodeDigits_mod (ms : List Nat) (n : Nat) :
    decodeDigits (n % ms.prod) ms = decodeDigits n ms := by
  simpa using decodeDigits_mod_mul ms n 1

theorem decodeDigits_inj (ms : List Nat) (hm : ∀ m ∈ ms, 0 < m) :
    ∀ n1 n2, n1 < ms.prod → n2 < ms.prod →
      decodeDigits n1 ms = decodeDigits n2 ms → n1 = n2 := by
  induction ms with
  | nil =>
    intro n1 n2 h1 h2 _
    simp only [List.prod_nil, Nat.lt_one_iff] at h1 h2
    omega
  | cons m ms ih =>
    intro n1 n2 h1 h2 heq
    simp only [decodeDigits, List.prod_cons, List.cons.injEq] at heq h1 h2
    have hP : 0 < ms.prod :=
      List.prod_pos (fun x hx => hm x (by simp [hx]))
    have hm0 : 0 < m := hm m (by simp)
    have hd1 : n1 / ms.prod < m := (Nat.div_lt_iff_lt_mul hP).2 h1
    have hd2 : n2 / ms.prod < m := (Nat.div_lt_iff_lt_mul hP).2 h2
    have hdiv : n1 / ms.prod = n2 / ms.prod := by
      have := heq.1
      rwa [Nat.mod_eq_of_lt hd1, Nat.mod_eq_of_lt hd2] at this
    have hmod : n1 % ms.prod = n2 % ms.prod := by
      refine ih (fun x hx => hm x (by simp [hx])) _ _
        (Nat.mod_lt _ hP) (Nat.mod_lt _ hP) ?_
      rw [decodeDigits_mod, decodeDigits_mod]
      exact heq.2
    have e1 := Nat.div_add_mod n1 ms.prod
    have e2 := Nat.div_add_mod n2 ms.prod
    rw [hdiv, hmod] at e1
    omega

theorem add_le_mul_succ {q m : Nat} (hq : 1 ≤ q) (hm : 1 ≤ m) :
    q + m ≤ q * m + 1 := by
  rcases Nat.lt_or_ge q 2 with h | h
  · have hq1 : q = 1 := by omega
    subst hq1; omega
  · rcases Nat.lt_or_ge m 2 with h' | h'
    · have hm1 : m = 1 := by omega
      subst hm1; omega
    · exact le_trans (Nat.add_le_mul h h') (by omega)

theorem div_add_le_succ {d m : Nat} (hm : 1 ≤ m) (hd : m ≤ d + 1) :
    d / m + m ≤ d + 1 := by
  rcases Nat.eq_zero_or_pos (d / m) with h | h
  · omega
  · have h1 : d / m * m ≤ d := Nat.div_mul_le_self d m
    have h2 : d / m + m ≤ d / m * m + 1 := add_le_mul_succ h hm
    omega

theorem encodeDigits_lt {ds ms : List Nat}
    (h : List.Forall₂ (· < ·) ds ms) : encodeDigits ds ms < ms.prod := by
  induction h with
  | nil => simp [encodeDigits]
  | @cons d m ds ms hdm _ ih =>
    simp only [encodeDigits, List.prod_cons]
    have hP : 0 < ms.prod := lt_of_le_of_lt (Nat.zero_le _) ih
    calc d * ms.prod + encodeDigits ds ms
        < d * ms.prod + ms.prod := by omega
      _ = (d + 1) * ms.prod := by ring
      _ ≤ m * ms.prod := Nat.mul_le_mul_right _ hdm

theorem decodeDigits_encode {ds ms : List Nat}
    (h : List.Forall₂ (· < ·) ds ms) :
    decodeDigits (encodeDigits ds ms) ms = ds := by
  induction h with
  | nil => simp [decodeDigits, encodeDigits]
  | @cons d m ds ms hdm hrest ih =>
    have he : encodeDigits ds ms < ms.prod := encodeDigits_lt hrest
    have hP : 0 < ms.prod := lt_of_le_of_lt (Nat.zero_le _) he
    simp only [decodeDigits, encodeDigits, List.cons.injEq]
    constructor
    · rw [Nat.mul_comm d ms.prod, Nat.mul_add_div hP,
        Nat.div_eq_of_lt he, Nat.add_zero, Nat.mod_eq_of_lt hdm]
    · rw [← decodeDigits_mod ms (d * ms.prod + encodeDigits ds ms),
        Nat.add_comm (d * ms.prod), Nat.add_mul_mod_self_right,
        Nat.mod_eq_of_lt he, ih]

/-! ### Bridge between `entry_at_priv` / `precompute` and the digit view -/

theorem entry_at_priv_eq (cs : List (List String)) (n M : Nat) :
    entry_at_priv cs n ⟨sufProds (cs.map List.length), cs.map List.length, M⟩ =
      List.zipWith (fun (c : List String) d => c.getD d "") cs
        (decodeDigits n (cs.map List.length)) := by
  induction cs with
  | nil => simp [entry_at_priv, decodeDigits]
  | cons c cs ih =>
    simp only [entry_at_priv, List.map_cons, sufProds, decodeDigits,
      List.zip_cons_cons, List.zipWith_cons_cons, List.cons.injEq] at ih ⊢
    exact ⟨trivial, ih⟩

/-- Picking one symbol per digit is injective on in-range digit lists when
every domain is duplicate-free. -/
theorem zipWith_getD_inj (cs : List (List String))
    (hnd : ∀ c ∈ cs, c.Nodup) :
    ∀ ds1 ds2, List.Forall₂ (· < ·) ds1 (cs.map List.length) →
      List.Forall₂ (· < ·) ds2 (cs.map List.length) →
      List.zipWith (fun (c : List String) d => c.getD d "") cs ds1 =
        List.zipWith (fun (c : List String) d => c.getD d "") cs ds2 →
      ds1 = ds2 := by
  induction cs with
  | nil =>
    intro ds1 ds2 h1 h2 _
    cases h1
    cases h2
    rfl
  | cons c cs ih =>
    intro ds1 ds2 h1 h2 heq
    simp only [List.map_cons] at h1 h2
    cases h1 with
    | cons hd1 ht1 =>
      cases h2 with
      | cons hd2 ht2 =>
        simp only [List.zipWith_cons_cons, List.cons.injEq] at heq
        have hhead : _ = _ := heq.1
        rw [List.getD_eq_getElem c "" hd1, List.getD_eq_getElem c "" hd2] at hhead
        have hnodup : c.Nodup := hnd c (by simp)
        have := (List.Nodup.getElem_inj_iff hnodup).1 hhead
        exact by
          rw [this, ih (fun x hx => hnd x (by simp [hx])) _ _ ht1 ht2 heq.2]

/-- Every choice of one symbol from each domain is realized by some in-range
digit list. -/
theorem zipWith_getD_surj (cs : List (List String)) (c : List String)
    (h : List.Forall₂ (fun s (dom : List String) => s ∈ dom) c cs) :
    ∃ ds, List.Forall₂ (· < ·) ds (cs.map List.length) ∧
      List.zipWith (fun (dom : List String) d => dom.getD d "") cs ds = c := by
  induction h with
  | nil => exact ⟨[], by simp, rfl⟩
  | @cons s dom c cs hs _ ih =>
    obtain ⟨ds, hds, hz⟩ := ih
    obtain ⟨i, hi⟩ := List.mem_iff_get.1 hs
    refine ⟨i.val :: ds, ?_, ?_⟩
    · simpa using List.Forall₂.cons i.isLt hds
    · simp only [List.zipWith_cons_cons, hz, List.cons.injEq]
      exact ⟨by rw [List.getD_eq_getElem dom "" i.isLt]; exact hi, trivial⟩

/-- The decode of an in-range digit list picks a member of each domain. -/
theorem zipWith_getD_mem (cs : List (List String)) :
    ∀ ds, List.Forall₂ (· < ·) ds (cs.map List.length) →
      List.Forall₂ (fun s (dom : List String) => s ∈ dom)
        (List.zipWith (fun (dom : List String) d => dom.getD d "") cs ds) cs := by
  induction cs with
  | nil => intro ds h; cases h; simp
  | cons c cs ih =>
    intro ds h
    simp only [List.map_cons] at h
    cases h with
    | cons hd ht =>
      simp only [List.zipWith_cons_cons]
      refine List.Forall₂.cons ?_ (ih _ ht)
      rw [List.getD_eq_getElem c "" hd]
      exact List.getElem_mem hd

/-! ### Behaviour of the sampler loop -/

theorem drain_cons_pos {it : RandomIterator} (h : 0 < it.num_left)
    (o : Nat) (os : List Nat) :
    it.drain (o :: os) =
      ((o + it.last_k + 1) ::
          (RandomIterator.drain ⟨it.n, o + it.last_k + 1, it.num_left - 1⟩ os).1,
        (RandomIterator.drain ⟨it.n, o + it.last_k + 1, it.num_left - 1⟩ os).2) := by
  simp [RandomIterator.drain, RandomIterator.has_next, RandomIterator.next, h]

theorem drain_cons_zero {it : RandomIterator} (h : it.num_left = 0)
    (o : Nat) (os : List Nat) : it.drain (o :: os) = ([], it) := by
  simp [RandomIterator.drain, RandomIterator.has_next, h]

theorem drain_fst_length (os : List Nat) :
    ∀ it : RandomIterator, (it.drain os).1.length = min it.num_left os.length := by
  induction os with
  | nil => intro it; simp [RandomIterator.drain]
  | cons o os ih =>
    intro it
    rcases Nat.eq_zero_or_pos it.num_left with h0 | hpos
    · rw [drain_cons_zero h0]
      simp [h0]
    · rw [drain_cons_pos hpos]
      simp only [List.length_cons, ih]
      omega

theorem drain_fst_gt (os : List Nat) :
    ∀ (it : RandomIterator) (v : Nat), v ∈ (it.drain os).1 → it.last_k < v := by
  induction os with
  | nil => intro it v hv; simp [RandomIterator.drain] at hv
  | cons o os ih =>
    intro it v hv
    rcases Nat.eq_zero_or_pos it.num_left with h0 | hpos
    · rw [drain_cons_zero h0] at hv
      simp at hv
    · rw [drain_cons_pos hpos] at hv
      rcases List.mem_cons.1 hv with h | h
      · omega
      · have := ih _ v h
        simp only at this
        omega

theorem drain_fst_pairwise (os : List Nat) :
    ∀ it : RandomIterator, (it.drain os).1.Pairwise (· < ·) := by
  induction os with
  | nil => intro it; simp [RandomIterator.drain]
  | cons o os ih =>
    intro it
    rcases Nat.eq_zero_or_pos it.num_left with h0 | hpos
    · rw [drain_cons_zero h0]; simp
    · rw [drain_cons_pos hpos]
      refine List.Pairwise.cons (fun v hv => ?_) (ih _)
      have := drain_fst_gt os _ v hv
      simp only at this
      omega

theorem drain_snd_num_left (os : List Nat) :
    ∀ it : RandomIterator,
      ((it.drain os).2).num_left = it.num_left - os.length := by
  induction os with
  | nil => intro it; simp [RandomIterator.drain]
  | cons o os ih =>
    intro it
    rcases Nat.eq_zero_or_pos it.num_left with h0 | hpos
    · rw [drain_cons_zero h0]
      simp [h0]
    · rw [drain_cons_pos hpos]
      simp only [List.length_cons, ih]
      omega

/-- The driving invariant of the streaming sampler: as long as every offset is
within the inclusive range the distribution was built with, `last_k + num_left`
never exceeds `n + 1`, so every produced value is at most `n + 1` (and in
particular the unsigned subtraction `n - last_k` never wraps while draws
remain). -/
theorem drain_fst_le (os : List Nat) :
    ∀ it : RandomIterator, it.valid_offsets os = true →
      it.last_k + it.num_left ≤ it.n + 1 →
      ∀ v ∈ (it.drain os).1, v ≤ it.n + 1 := by
  induction os with
  | nil => intro it _ _ v hv; simp [RandomIterator.drain] at hv
  | cons o os ih =>
    intro it hval hinv v hv
    rcases Nat.eq_zero_or_pos it.num_left with h0 | hpos
    · rw [drain_cons_zero h0] at hv
      simp at hv
    · rw [drain_cons_pos hpos] at hv
      simp only [RandomIterator.valid_offsets, hpos, if_pos, Bool.and_eq_true,
        decide_eq_true_eq] at hval
      obtain ⟨ho, hval'⟩ := hval
      have hlast : it.last_k ≤ it.n := by omega
      have hd : it.n - it.last_k = it.n - it.last_k := rfl
      have hm1 : 1 ≤ it.num_left := hpos
      have hdm : it.num_left ≤ (it.n - it.last_k) + 1 := by omega
      have hdb := div_add_le_succ hm1 hdm
      have hr : (o + it.last_k + 1) + (it.num_left - 1) ≤ it.n + 1 := by omega
      rcases List.mem_cons.1 hv with h | h
      · omega
      · have := ih ⟨it.n, o + it.last_k + 1, it.num_left - 1⟩ hval' (by
          simpa using hr) v h
        simpa using this

/-! ### The claims -/

/-- C2: for every non-empty domain list, `precompute` yields
`mods[i] = size(domain[i])`, `divs[i]` equal to the product of the sizes of
the domains strictly to the right of position `i` (so `divs[L-1] = 1`), and
`max_size` equal to the product of all domain sizes, which also equals
`divs[0] * mods[0]`. -/
theorem C2_precompute_shape (domains : List (List String))
    (h : domains ≠ []) (ps : precomputed_stats)
    (hps : precompute domains = Except.ok ps) (i : Nat)
    (hi : i < domains.length) :
    ps.mods = domains.map List.length ∧
    ps.divs.getD i 0 = ((domains.map List.length).drop (i + 1)).prod ∧
    ps.divs.getD (domains.length - 1) 0 = 1 ∧
    ps.max_size = (domains.map List.length).prod ∧
    ps.max_size = ps.divs.getD 0 0 * ps.mods.getD 0 0 := by
  obtain ⟨-, rfl⟩ := precompute_ok_elim hps
  dsimp only
  refine ⟨rfl, ?_, ?_, rfl, ?_⟩
  · exact sufProds_getD _ i (by simpa using hi)
  · have hlen : 0 < domains.length := List.length_pos.2 h
    rw [sufProds_getD _ _ (by simp; omega)]
    have hdrop : (domains.map List.length).drop (domains.length - 1 + 1) = [] := by
      apply List.drop_eq_nil_of_le
      simp
      omega
    rw [hdrop, List.prod_nil]
  · cases domains with
    | nil => exact absurd rfl h
    | cons c cs => simp [sufProds, List.prod_cons, Nat.mul_comm]

/-- C2 witness at domains `[["a","b"], ["c"]]`, position 0. -/
theorem C2_precompute_shape_witness :
    ([2, 1] : List Nat) = [["a", "b"], ["c"]].map List.length ∧
    ([1, 1] : List Nat).getD 0 0 =
      (([["a", "b"], ["c"]].map List.length).drop 1).prod ∧
    ([1, 1] : List Nat).getD 1 0 = 1 ∧
    (2 : Nat) = ([["a", "b"], ["c"]].map List.length).prod ∧
    (2 : Nat) = ([1, 1] : List Nat).getD 0 0 * ([2, 1] : List Nat).getD 0 0 :=
  C2_precompute_shape [["a", "b"], ["c"]] (by decide)
    ⟨[1, 1], [2, 1], 2⟩ rfl 0 (by decide)

/-- C3: a sampler built from `(k, N)` with `k ≤ N` produces exactly `k`
values over successive `next()` calls (one per supplied random offset), the
values are strictly increasing (hence pairwise distinct), and a further call
to `next()` fails with the exhaustion error. -/
theorem C3_sampler_exact_count (k N : Nat) (_hkN : k ≤ N)
    (offs : List Nat) (hlen : offs.length = k) (o : Nat) :
    ((RandomIterator.mk N 0 k).drain offs).1.length = k ∧
    ((RandomIterator.mk N 0 k).drain offs).1.Pairwise (· < ·) ∧
    ((RandomIterator.mk N 0 k).drain offs).2.next o =
      Except.error Error.out_of_range_exceeded := by
  refine ⟨?_, drain_fst_pairwise offs _, ?_⟩
  · rw [drain_fst_length]
    simp [hlen]
  · have h := drain_snd_num_left offs (RandomIterator.mk N 0 k)
    simp only [hlen] at h
    have h0 : ((RandomIterator.mk N 0 k).drain offs).2.num_left = 0 := by
      simpa using h
    simp [RandomIterator.next, h0]

/-- C3 witness at k = 2, N = 5, offsets `[0, 0]`. -/
theorem C3_sampler_exact_count_witness :
    ((RandomIterator.mk 5 0 2).drain [0, 0]).1.length = 2 ∧
    ((RandomIterator.mk 5 0 2).drain [0, 0]).1.Pairwise (· < ·) ∧
    ((RandomIterator.mk 5 0 2).drain [0, 0]).2.next 0 =
      Except.error Error.out_of_range_exceeded :=
  C3_sampler_exact_count 2 5 (by decide) [0, 0] rfl 0

/-- C4 counterexample: with k = N = 1 the single draw uses the inclusive
offset range `[0, (1-0)/1] = [0, 1]`; the allowed offset 1 produces the value
2, which exceeds N = 1, refuting "no returned value exceeds N". -/
theorem C4_counterexample :
    (RandomIterator.mk 1 0 1).valid_offsets [1] = true ∧
    ((RandomIterator.mk 1 0 1).drain [1]).1 = [2] ∧
    ¬ (∀ v ∈ ((RandomIterator.mk 1 0 1).drain [1]).1, v ≤ 1) := by decide

/-- C4 amended: for `1 ≤ k ≤ N` and any draws within the allowed inclusive
ranges, every value returned by `next()` lies within `[1, N + 1]` (the upper
end `N + 1` is reachable, so the bound cannot be tightened to `N`). -/
theorem C4_amended_range (k N : Nat) (_h1 : 1 ≤ k) (hkN : k ≤ N)
    (offs : List Nat)
    (hv : (RandomIterator.mk N 0 k).valid_offsets offs = true)
    (v : Nat) (hm : v ∈ ((RandomIterator.mk N 0 k).drain offs).1) :
    1 ≤ v ∧ v ≤ N + 1 := by
  constructor
  · have := drain_fst_gt offs _ v hm
    simp only at this
    omega
  · have := drain_fst_le offs _ hv (by simp; omega) v hm
    simpa using this

/-- C4 witness at k = N = 1, offset 1, value 2. -/
theorem C4_amended_range_witness : 1 ≤ 2 ∧ 2 ≤ 1 + 1 :=
  C4_amended_range 1 1 (by decide) (by decide) [1] (by decide) 2 (by decide)

/-- C7 (code bug): version 1.6 never calls `sample_size_valid`, so a sample
size larger than the total size is not rejected: `generate_samples` on the
2-element space `[["a","b"]]` with sample size 3 constructs the sampler,
draws the out-of-range index sequence 1, 2, 3 (all offsets forced to 0), and
returns three combinations with a repeat — even though the code's own
validator `sample_size_valid(3, 2)` answers false. -/
theorem C7_no_sample_size_validation :
    generate_samples [0, 0, 0] [["a", "b"]] 3 =
      Except.ok [["b"], ["a"], ["b"]] ∧
    sample_size_valid 3 2 = false ∧
    (RandomIterator.mk 2 0 3).valid_offsets [0, 0, 0] = true :=
  ⟨rfl, rfl, rfl⟩

/-- C8 counterexample: `precompute [["a"], []]` does not fail — no
empty-domain check exists — and instead produces a stats value with
`max_size = 0`. -/
theorem C8_counterexample :
    precompute [["a"], []] =
      Except.ok ⟨[0, 1], [1, 0], 0⟩ := rfl

/-- C8 amended: space construction fails with the empty-list error
(`empty_answers_error`) when the domain list has zero entries; when the list
is non-empty construction always succeeds, even when some domain is empty —
there is no empty-domain error — and an empty domain yields a space whose
`max_size` is 0. -/
theorem C8_amended_empty_checks (domains : List (List String))
    (hne : domains ≠ []) (hmem : [] ∈ domains) :
    precompute ([] : List (List String)) =
      Except.error Error.empty_answers_error ∧
    ∃ ps, precompute domains = Except.ok ps ∧ ps.max_size = 0 := by
  refine ⟨rfl, ⟨_, precompute_ok domains hne, ?_⟩⟩
  dsimp only
  apply List.prod_eq_zero
  rw [List.mem_map]
  exact ⟨[], hmem, rfl⟩

/-- C8 witness at domains `[["a"], []]`. -/
theorem C8_amended_empty_checks_witness :
    precompute ([] : List (List String)) =
      Except.error Error.empty_answers_error ∧
    ∃ ps, precompute [["a"], []] = Except.ok ps ∧ ps.max_size = 0 :=
  C8_amended_empty_checks [["a"], []] (by decide) (by decide)

/-- All domain sizes are positive when all domains are non-empty. -/
theorem lengths_pos (domains : List (List String))
    (h2 : ∀ d ∈ domains, d ≠ []) :
    ∀ m ∈ domains.map List.length, 0 < m := by
  intro m hm
  obtain ⟨d, hd, rfl⟩ := List.mem_map.1 hm
  exact List.length_pos.2 (h2 d hd)

/-- C1 counterexample: with the duplicated domain `["a", "a"]` the two
in-range indices 0 and 1 decode to the same combination `["a"]`, so the
decode map is not injective on combinations as stated. -/
theorem C1_counterexample :
    precompute [["a", "a"]] = Except.ok ⟨[1], [2], 2⟩ ∧
    entry_at_priv [["a", "a"]] 0 ⟨[1], [2], 2⟩ =
      entry_at_priv [["a", "a"]] 1 ⟨[1], [2], 2⟩ ∧
    (0 : Nat) ≠ 1 ∧ (0 : Nat) < 2 ∧ (1 : Nat) < 2 :=
  ⟨rfl, rfl, by decide, by decide, by decide⟩

/-- C1 amended: when additionally every domain is duplicate-free, the decode
map restricted to `[0, max_size)` is a bijection onto the Cartesian product:
distinct in-range indices decode to distinct combinations, and every
combination (one symbol from each domain, in order) is the decode result of
exactly one in-range index. -/
theorem C1_amended_bijection (domains : List (List String))
    (_h1 : domains ≠ []) (h2 : ∀ d ∈ domains, d ≠ [])
    (h3 : ∀ d ∈ domains, d.Nodup) (ps : precomputed_stats)
    (hps : precompute domains = Except.ok ps) (i j : Nat)
    (hi : i < ps.max_size) (hj : j < ps.max_size) (c : List String)
    (hc : List.Forall₂ (fun s (dom : List String) => s ∈ dom) c domains) :
    (entry_at_priv domains i ps = entry_at_priv domains j ps → i = j) ∧
    (∃! n, n < ps.max_size ∧ entry_at_priv domains n ps = c) := by
  obtain ⟨-, rfl⟩ := precompute_ok_elim hps
  dsimp only at hi hj ⊢
  have hpos := lengths_pos domains h2
  constructor
  · intro heq
    rw [entry_at_priv_eq, entry_at_priv_eq] at heq
    have hdg := zipWith_getD_inj domains h3 _ _
      (decodeDigits_forall2_lt _ hpos i)
      (decodeDigits_forall2_lt _ hpos j) heq
    exact decodeDigits_inj _ hpos i j hi hj hdg
  · obtain ⟨ds, hds, hzip⟩ := zipWith_getD_surj domains c hc
    refine ⟨encodeDigits ds (domains.map List.length),
      ⟨encodeDigits_lt hds, ?_⟩, ?_⟩
    · rw [entry_at_priv_eq, decodeDigits_encode hds, hzip]
    · rintro y ⟨hy, hyc⟩
      rw [entry_at_priv_eq] at hyc
      apply decodeDigits_inj _ hpos y _ hy (encodeDigits_lt hds)
      apply zipWith_getD_inj domains h3 _ _
        (decodeDigits_forall2_lt _ hpos y)
        (decodeDigits_forall2_lt _ hpos _)
      rw [decodeDigits_encode hds, hzip]
      exact hyc

/-- C1 witness at domains `[["a","b"], ["c"]]`, indices 0/0, combination
`["a", "c"]`. -/
theorem C1_amended_bijection_witness :
    (entry_at_priv [["a", "b"], ["c"]] 0 ⟨[1, 1], [2, 1], 2⟩ =
        entry_at_priv [["a", "b"], ["c"]] 0 ⟨[1, 1], [2, 1], 2⟩ →
      (0 : Nat) = 0) ∧
    (∃! n, n < 2 ∧
      entry_at_priv [["a", "b"], ["c"]] n ⟨[1, 1], [2, 1], 2⟩ = ["a", "c"]) :=
  C1_amended_bijection [["a", "b"], ["c"]] (by decide) (by decide) (by decide)
    ⟨[1, 1], [2, 1], 2⟩ rfl 0 0 (by decide) (by decide) ["a", "c"]
    (List.Forall₂.cons (by decide) (List.Forall₂.cons (by decide)
      List.Forall₂.nil))

/-- C9: the public `entry_at` fails with `index_error` exactly when the
index is negative or at least `max_size` (the guard runs before any digit
computation), while indices 0 and `max_size - 1` succeed. -/
theorem C9_entry_at_boundary (domains : List (List String))
    (_h1 : domains ≠ []) (h2 : ∀ d ∈ domains, d ≠ [])
    (ps : precomputed_stats) (hps : precompute domains = Except.ok ps)
    (idx : Int) :
    (entry_at domains idx = Except.error Error.index_error ↔
      idx < 0 ∨ (ps.max_size : Int) ≤ idx) ∧
    (∃ v, entry_at domains 0 = Except.ok v) ∧
    (∃ v, entry_at domains ((ps.max_size : Int) - 1) = Except.ok v) := by
  have hmax : 0 < ps.max_size := by
    obtain ⟨-, rfl⟩ := precompute_ok_elim hps
    exact List.prod_pos (lengths_pos domains h2)
  refine ⟨?_, ?_, ?_⟩
  · by_cases hcond : idx < 0 ∨ (ps.max_size : Int) ≤ idx
    · simp [entry_at, hps, hcond]
    · simp [entry_at, hps, hcond]
  · have hcond : ¬((0 : Int) < 0 ∨ (ps.max_size : Int) ≤ 0) := by
      push_neg
      refine ⟨le_refl 0, ?_⟩
      exact_mod_cast hmax
    simp [entry_at, hps, hcond, hmax.ne']
  · have hcond : ¬((ps.max_size : Int) - 1 < 0 ∨
        (ps.max_size : Int) ≤ (ps.max_size : Int) - 1) := by
      push_neg
      constructor
      · have : (1 : Int) ≤ (ps.max_size : Int) := by exact_mod_cast hmax
        omega
      · omega
    simp [entry_at, hps, hcond, hmax.ne']

/-- C9 witness at domains `[["a","b"], ["c"]]`, index 2 = max_size. -/
theorem C9_entry_at_boundary_witness :
    (entry_at [["a", "b"], ["c"]] 2 = Except.error Error.index_error ↔
      (2 : Int) < 0 ∨ ((2 : Nat) : Int) ≤ 2) ∧
    (∃ v, entry_at [["a", "b"], ["c"]] 0 = Except.ok v) ∧
    (∃ v, entry_at [["a", "b"], ["c"]] (((2 : Nat) : Int) - 1) =
      Except.ok v) :=
  C9_entry_at_boundary [["a", "b"], ["c"]] (by decide) (by decide)
    ⟨[1, 1], [2, 1], 2⟩ rfl 2

/-- C10: the internal (unchecked) decode is total — every extracted digit
`(n / divs[i]) % mods[i]` is strictly below the size of domain `i`, so every
domain access is in bounds — and decode is periodic with period `max_size`:
`entry_at_priv` at `n` equals `entry_at_priv` at `n % max_size`. -/
theorem C10_decode_total_periodic (domains : List (List String))
    (_h1 : domains ≠ []) (h2 : ∀ d ∈ domains, d ≠ [])
    (ps : precomputed_stats) (hps : precompute domains = Except.ok ps)
    (n i : Nat) (hi : i < domains.length) :
    (n / ps.divs.getD i 0) % ps.mods.getD i 0 < (domains.getD i []).length ∧
    entry_at_priv domains n ps = entry_at_priv domains (n % ps.max_size) ps := by
  obtain ⟨-, rfl⟩ := precompute_ok_elim hps
  dsimp only
  constructor
  · have hmap : i < (domains.map List.length).length := by simpa using hi
    have hm : (domains.map List.length).getD i 0 = (domains.getD i []).length := by
      rw [List.getD_eq_getElem _ _ hmap, List.getElem_map,
        List.getD_eq_getElem _ _ hi]
    rw [hm]
    have hpos : 0 < (domains.getD i []).length := by
      apply List.length_pos.2
      apply h2
      rw [List.getD_eq_getElem _ _ hi]
      exact List.getElem_mem hi
    exact Nat.mod_lt _ hpos
  · rw [entry_at_priv_eq, entry_at_priv_eq, decodeDigits_mod]

/-- C10 witness at domains `[["a","b"], ["c"]]`, n = 7, i = 0. -/
theorem C10_decode_total_periodic_witness :
    (7 / ([1, 1] : List Nat).getD 0 0) % ([2, 1] : List Nat).getD 0 0 <
      ([["a", "b"], ["c"]].getD 0 []).length ∧
    entry_at_priv [["a", "b"], ["c"]] 7 ⟨[1, 1], [2, 1], 2⟩ =
      entry_at_priv [["a", "b"], ["c"]] (7 % 2) ⟨[1, 1], [2, 1], 2⟩ :=
  C10_decode_total_periodic [["a", "b"], ["c"]] (by decide) (by decide)
    ⟨[1, 1], [2, 1], 2⟩ rfl 7 0 (by decide)

/-- C5 counterexample: on the 3-element space `[["a","b","c"]]` with
desiredCount 2, the legal draws with offsets 0 then 2 produce the underlying
indices 1 and 4 = totalSize + 1; index 4 decodes like index 1, so the result
`[["b"], ["b"]]` is not pairwise distinct even though 2 ≤ totalSize. -/
theorem C5_counterexample :
    generate_samples [0, 2] [["a", "b", "c"]] 2 = Except.ok [["b"], ["b"]] ∧
    (RandomIterator.mk 3 0 2).valid_offsets [0, 2] = true ∧
    (2 : Nat) ≤ 3 ∧
    ¬ ([["b"], ["b"]] : List (List String)).Nodup :=
  ⟨rfl, rfl, by decide, by decide⟩

/-- C5 amended: for `desiredCount ≤ max_size` (one random offset per draw),
`generate_samples` returns exactly `desiredCount` combinations, each the
decode of its underlying index, with the underlying indices strictly
increasing; the decoded combinations themselves need not be pairwise
distinct, because a drawn index can reach `max_size + 1`, which decodes to
the same combination as index 1. -/
theorem C5_amended_samples (domains : List (List String))
    (h1 : domains ≠ []) (_h2 : ∀ d ∈ domains, d ≠ [])
    (ps : precomputed_stats) (hps : precompute domains = Except.ok ps)
    (desiredCount : Nat) (offs : List Nat)
    (_hd : desiredCount ≤ ps.max_size) (hlen : offs.length = desiredCount) :
    ∃ out, generate_samples offs domains desiredCount = Except.ok out ∧
      out.length = desiredCount ∧
      ∃ idxs : List Nat, idxs.Pairwise (· < ·) ∧
        out = idxs.map (fun i => entry_at_priv domains i ps) := by
  have hnz : ¬ domains.length = 0 := by simpa [List.length_eq_zero] using h1
  by_cases he : desiredCount = ps.max_size
  · refine ⟨(List.range desiredCount).map (fun i => entry_at_priv domains i ps),
      ?_, ?_, List.range desiredCount, List.pairwise_lt_range _, rfl⟩
    · simp [generate_samples, hnz, hps, he]
    · simp
  · refine ⟨((RandomIterator.mk ps.max_size 0 desiredCount).drain offs).1.map
        (fun i => entry_at_priv domains i ps),
      ?_, ?_, ((RandomIterator.mk ps.max_size 0 desiredCount).drain offs).1,
      drain_fst_pairwise offs _, rfl⟩
    · simp [generate_samples, hnz, hps, he]
    · rw [List.length_map, drain_fst_length]
      simp [hlen]

/-- C5 witness at domains `[["a","b","c"]]`, desiredCount 2,
offsets `[0, 2]`. -/
theorem C5_amended_samples_witness :
    ∃ out, generate_samples [0, 2] [["a", "b", "c"]] 2 = Except.ok out ∧
      out.length = 2 ∧
      ∃ idxs : List Nat, idxs.Pairwise (· < ·) ∧
        out = idxs.map
          (fun i => entry_at_priv [["a", "b", "c"]] i ⟨[1], [3], 3⟩) :=
  C5_amended_samples [["a", "b", "c"]] (by decide) (by decide)
    ⟨[1], [3], 3⟩ rfl 2 [0, 2] (by decide) rfl

/-- C6 counterexample: with the duplicated domain `["a", "a"]`,
`generate_samples` at `desiredCount = totalSize = 2` returns the decodes of
indices 0 and 1 in order, but they are the same combination `["a"]` — the
product is not enumerated "exactly once" as combination values. -/
theorem C6_counterexample :
    generate_samples [] [["a", "a"]] 2 = Except.ok [["a"], ["a"]] ∧
    ¬ ([["a"], ["a"]] : List (List String)).Nodup :=
  ⟨rfl, by decide⟩

/-- C6 amended: with duplicate-free domains, `generate_samples` at
`desiredCount = max_size` returns the decode of indices `0..max_size-1` in
increasing index order (no sampler involved), the returned list has no
duplicates, and its members are exactly the combinations of the product —
every combination appears exactly once. -/
theorem C6_amended_full_space (domains : List (List String))
    (h1 : domains ≠ []) (h2 : ∀ d ∈ domains, d ≠ [])
    (h3 : ∀ d ∈ domains, d.Nodup) (ps : precomputed_stats)
    (hps : precompute domains = Except.ok ps) (offs : List Nat)
    (c : List String) :
    generate_samples offs domains ps.max_size =
      Except.ok ((List.range ps.max_size).map
        (fun i => entry_at_priv domains i ps)) ∧
    ((List.range ps.max_size).map (fun i => entry_at_priv domains i ps)).Nodup ∧
    (List.Forall₂ (fun s (dom : List String) => s ∈ dom) c domains ↔
      c ∈ (List.range ps.max_size).map
        (fun i => entry_at_priv domains i ps)) := by
  have hnz : ¬ domains.length = 0 := by simpa [List.length_eq_zero] using h1
  have hpos := lengths_pos domains h2
  obtain ⟨-, rfl⟩ := precompute_ok_elim hps
  refine ⟨?_, ?_, ?_⟩
  · simp [generate_samples, hnz, hps]
  · dsimp only
    apply List.Nodup.map_on ?_ (List.nodup_range _)
    intro x hx y hy hxy
    rw [List.mem_range] at hx hy
    rw [entry_at_priv_eq, entry_at_priv_eq] at hxy
    exact decodeDigits_inj _ hpos x y hx hy
      (zipWith_getD_inj domains h3 _ _
        (decodeDigits_forall2_lt _ hpos x)
        (decodeDigits_forall2_lt _ hpos y) hxy)
  · dsimp only
    constructor
    · intro hc
      obtain ⟨ds, hds, hzip⟩ := zipWith_getD_surj domains c hc
      rw [List.mem_map]
      refine ⟨encodeDigits ds (domains.map List.length), ?_, ?_⟩
      · rw [List.mem_range]
        exact encodeDigits_lt hds
      · rw [entry_at_priv_eq, decodeDigits_encode hds, hzip]
    · intro hc
      rw [List.mem_map] at hc
      obtain ⟨i, _, rfl⟩ := hc
      rw [entry_at_priv_eq]
      exact zipWith_getD_mem domains _ (decodeDigits_forall2_lt _ hpos i)

/-- C6 witness at domains `[["a","b"], ["c"]]`, combination `["b","c"]`. -/
theorem C6_amended_full_space_witness :
    generate_samples [] [["a", "b"], ["c"]] 2 =
      Except.ok ((List.range 2).map
        (fun i => entry_at_priv [["a", "b"], ["c"]] i ⟨[1, 1], [2, 1], 2⟩)) ∧
    ((List.range 2).map
      (fun i => entry_at_priv [["a", "b"], ["c"]] i ⟨[1, 1], [2, 1], 2⟩)).Nodup ∧
    (List.Forall₂ (fun s (dom : List String) => s ∈ dom) ["b", "c"]
        [["a", "b"], ["c"]] ↔
      ["b", "c"] ∈ (List.range 2).map
        (fun i => entry_at_priv [["a", "b"], ["c"]] i ⟨[1, 1], [2, 1], 2⟩)) :=
  C6_amended_full_space [["a", "b"], ["c"]] (by decide) (by decide) (by decide)
    ⟨[1, 1], [2, 1], 2⟩ rfl [] ["b", "c"]

end lazycp
